import Mathlib

/-!
Formal model of the RSA toy implementation in `rsa.py`.

Conventions of the shallow embedding:
* Python integers in this program are nonnegative wherever the modelled code
  manipulates them (remainders, primes, keys), so they are modelled as `Nat`;
  the Bezout coefficients of the extended GCD, which do go negative, are `Int`.
  Python `//` and `%` on the values occurring here (nonnegative operands,
  positive divisors) agree with `Nat` division/`%` and with `Int.ediv`/`Int.emod`.
* `int(x ** 0.5)` is modelled by the exact integer square root `isqrt`
  (floating point is exact for the magnitudes this toy program handles).
* Python `while` loops are modelled by structural recursion on an explicit
  fuel argument that provably dominates the number of iterations, so that all
  definitions compute by kernel reduction.
* A Python exception (`raise`, or the `IndexError`/`TypeError` crashes in
  `ex_gcd` and `crack`) is modelled by `Except`/`Option` with the failing
  branches mapped to `error`/`none`.
* `random.randint(a, b)` is modelled by an explicit `mid` argument ranging
  over `a ≤ mid ≤ b`; one body of `gen_prime`'s retry loop is `genPrimeStep`.
-/

namespace RSA

/-- Exact integer square root by upward linear search: `isqrtAux fuel k n`
returns the largest `j ≤ k + fuel` with `j * j ≤ n`, assuming `k * k ≤ n`. -/
def isqrtAux : Nat → Nat → Nat → Nat
  | 0, k, _ => k
  | fuel+1, k, n => if (k+1) * (k+1) ≤ n then isqrtAux fuel (k+1) n else k

/-- Floor of the square root of `n`; it models Python's
`int(n ** 0.5)` (exact for the sizes handled by this program). -/
def isqrt (n : Nat) : Nat := isqrtAux n 0 n

/-- The remainder sequence built by `ex_gcd`:
`vals = [a, b]; while vals[-1] != 0: vals.append(vals[-2] % vals[-1]); vals = vals[:-1]`.
`euclidChainAux fuel a b` produces `[a, b, a % b, ...]` with the trailing `0`
already dropped; `fuel` dominates the iteration count since the second
argument strictly decreases. -/
def euclidChainAux : Nat → Nat → Nat → List Nat
  | 0, a, _ => [a]
  | fuel+1, a, b => if b = 0 then [a] else a :: euclidChainAux fuel b (a % b)

/-- The list `vals` of `ex_gcd` (remainder sequence without the final `0`). -/
def vals (a b : Nat) : List Nat := euclidChainAux (b+1) a b

/-- The back-substitution loop of `ex_gcd`. In the source, after the list
`vals` is built, the loop runs `i` from `len(vals)-2` down to `2` maintaining
`s, t` with `s = 1, t = -(vals[-3] // vals[-2])` initially and update
`nt = -(vals[i-2] // vals[i-1]); (s, t) = (t, s + t*nt)`. Processing the
list from its head recursively yields exactly the same final pair: for the
chain `a :: b :: rest`, the pair for `b :: rest` is combined with quotient
`a / b`. The base case `(0, 1)` corresponds to a chain `[x, g]` whose gcd is
its second entry. -/
def bezAux : Nat → Nat → Nat → Int × Int
  | 0, _, _ => (0, 1)
  | fuel+1, a, b =>
    if b = 0 then (0, 1)
    else if a % b = 0 then (0, 1)
    else
      let st := bezAux fuel b (a % b)
      (st.2, st.1 - st.2 * ((a / b : Nat) : Int))

/-- Final `(s, t)` pair of `ex_gcd`'s back-substitution for operands `a, b`
(in the order the Euclidean algorithm ran, i.e. after the swap). -/
def bez (a b : Nat) : Int × Int := bezAux (b+1) a b

/-- Model of `ex_gcd(a, b)` from the source (with `show_steps` printing dropped):
swaps so the larger operand comes first, builds the remainder list `vals`,
back-substitutes, and returns `(vals[-1], t % a)` when it swapped and
`(vals[-1], s % b)` otherwise. Accessing `vals[-3]` when `vals` has fewer
than 3 entries raises `IndexError` in Python; that crash is modelled by
`none`. -/
def ex_gcd (a b : Nat) : Option (Nat × Nat) :=
  if b > a then
    let v := vals b a
    if v.length < 3 then none
    else some (v.getLastD 0, ((bez b a).2 % (b : Int)).toNat)
  else
    let v := vals a b
    if v.length < 3 then none
    else some (v.getLastD 0, ((bez a b).1 % (b : Int)).toNat)

/-- Model of `dual_factor(N)`: trial division `for a in range(2, int(N**(1/2) + 1))`,
returning `(a, N // a)` for the first divisor and `None` (here `none`) if no
`a` in the range divides `N`. -/
def dual_factor (N : Nat) : Option (Nat × Nat) :=
  ((List.range' 2 (isqrt N + 1 - 2)).find? (fun a => N % a == 0)).map
    (fun a => (a, N / a))

/-- Marking predicate of `gen_prime`'s sieve over a window with upper end
`hi`: the source runs `for d in range(2, int(end**0.5 + 1))`, and for each
window element `p` with `p % d == 0` marks `p, p+d, ...` as composite.
Every value so marked is itself a multiple of `d`, and every multiple `x`
of `d` in the window is marked (at the latest when `p = x`), so element `x`
ends up marked exactly when some trial divisor `d` divides it. Note that
`d` itself is marked when it lies in the window (`d % d == 0`). -/
def isMarked (hi x : Nat) : Bool :=
  (List.range' 2 (isqrt hi + 1 - 2)).any (fun d => x % d == 0)

/-- One iteration of `gen_prime`'s retry loop, for the drawn
`midpoint = random.randint(a, b)`: form the window
`[max(a, midpoint-50), min(b, midpoint+50)]`, sieve it, and return the first
unmarked element (`none` means the iteration found nothing and the source
retries with a fresh midpoint). -/
def genPrimeStep (a b mid : Nat) : Option Nat :=
  let start := max a (mid - 50)
  let hi := min b (mid + 50)
  (List.range' start (hi - start + 1)).find? (fun x => !isMarked hi x)

/-- The eager validation of `gen_prime`: it raises
`Exception("Prime must be generated in the range a to b where a >= 2 and b > a")`
iff `a < 2 or b < a`. Arguments are Python ints, hence `Int`. -/
def invalidRange (a b : Int) : Bool := a < 2 || b < a

/-- Model of `gen_prime(a, b)` for one drawn midpoint: `error` models the
`InvalidRangeError` raise (which happens before any sieving), `ok none`
models an unproductive iteration (the source retries), `ok (some p)` models
returning `p`. -/
def gen_prime (a b : Int) (mid : Nat) : Except Unit (Option Nat) :=
  if invalidRange a b then Except.error () else Except.ok (genPrimeStep a.toNat b.toNat mid)

/-- Holds when `p` is a possible return value of `gen_prime(a, b)`: the range passes
validation and some drawn midpoint makes the sieve return `p`. -/
def genPrimeReturns (a b x : Nat) : Prop :=
  2 ≤ a ∧ a ≤ b ∧ ∃ mid, a ≤ mid ∧ mid ≤ b ∧ genPrimeStep a b mid = some x

/-- The `while b > 0` loop of `pow(a, b, N)`:
`if b % 2 == 1: ret = ret*a % N`, then `b //= 2; a = a*a % N`.
`fuel` dominates the iteration count since `b` strictly decreases. -/
def pow_loop : Nat → Nat → Nat → Nat → Nat → Nat
  | 0, ret, _, _, _ => ret
  | fuel+1, ret, a, b, N =>
    if b = 0 then ret
    else pow_loop fuel (if b % 2 = 1 then ret * a % N else ret) (a * a % N) (b / 2) N

/-- Model of `pow(a, b, N)` from the source: square-and-multiply with accumulator
starting at `1`. -/
def pow (a b N : Nat) : Nat := pow_loop (b+1) 1 a b N

/-- The arithmetic tail of `gen_keys` once the three random draws
`p = gen_prime(2, max_gen)`, `q = gen_prime(2, max_gen)` and
`e = gen_prime(max(p, q), max_gen)` are fixed:
`N = p*q; phi = (p-1)*(q-1); d = ex_gcd(e, phi)[1]; return (N, e, d)`.
`none` models the crash of `ex_gcd` propagating out of `gen_keys`. -/
def gen_keys_from (p q e : Nat) : Option (Nat × Nat × Nat) :=
  (ex_gcd e ((p-1) * (q-1))).map (fun gi => (p * q, e, gi.2))

/-- Auxiliary: keygen's private exponent for given `p, q, e`, i.e. the
inverse component of `ex_gcd(e, (p-1)*(q-1))`, kept as an `Option` because
`ex_gcd` can crash. -/
def keygen_d (p q e : Nat) : Option Nat :=
  (ex_gcd e ((p-1) * (q-1))).map (fun gi => gi.2)

/-- Model of `encrypt(m, N, e) = pow(m, e, N)` (printing dropped). -/
def encrypt (m N e : Nat) : Nat := pow m e N

/-- Model of `decrypt(c, N, d) = pow(c, d, N)` (printing dropped). -/
def decrypt (c N d : Nat) : Nat := pow c d N

/-- Model of `crack(N, e)`: `p, q = dual_factor(N)` (a `TypeError` crash when
`dual_factor` returns `None`, modelled by `none`), then
`d = ex_gcd(e, (p-1)*(q-1))[1]`. -/
def crack (N e : Nat) : Option Nat :=
  (dual_factor N).bind
    (fun pq => (ex_gcd e ((pq.1 - 1) * (pq.2 - 1))).map (fun gi => gi.2))

/-! ### Correctness of `isqrt` -/

theorem isqrtAux_spec : ∀ (fuel k n : Nat), k * k ≤ n →
    n < (k + fuel + 1) * (k + fuel + 1) →
    isqrtAux fuel k n * isqrtAux fuel k n ≤ n ∧
      n < (isqrtAux fuel k n + 1) * (isqrtAux fuel k n + 1) := by
  intro fuel
  induction fuel with
  | zero =>
    intro k n hk hn
    simpa [isqrtAux] using ⟨hk, by simpa using hn⟩
  | succ f ih =>
    intro k n hk hn
    rw [isqrtAux]
    by_cases h : (k+1) * (k+1) ≤ n
    · rw [if_pos h]
      refine ih (k+1) n h ?_
      have hEq : k + (f + 1) + 1 = k + 1 + f + 1 := by omega
      rw [hEq] at hn
      exact hn
    · rw [if_neg h]
      exact ⟨hk, by omega⟩

theorem isqrt_eq (n : Nat) : isqrt n = Nat.sqrt n := by
  have h := isqrtAux_spec n 0 n (by simp) (by nlinarith)
  rw [isqrt] at *
  refine le_antisymm (Nat.le_sqrt.mpr h.1) (Nat.le_of_lt_succ (Nat.sqrt_lt.mpr ?_))
  simpa using h.2

/-! ### Correctness of `pow` -/

theorem pow_loop_spec : ∀ (fuel b ret a N : Nat), b < fuel → 1 ≤ N →
    pow_loop fuel ret a b N = if b = 0 then ret else ret * a ^ b % N := by
  intro fuel
  induction fuel with
  | zero => omega
  | succ f ih =>
    intro b ret a N hb hN
    rw [pow_loop]
    by_cases h0 : b = 0
    · simp [h0]
    · rw [if_neg h0, if_neg h0]
      have hdiv : b / 2 < b := Nat.div_lt_self (by omega) (by omega)
      rw [ih (b / 2) _ _ _ (by omega) hN]
      by_cases h2 : b / 2 = 0
      · have hb1 : b = 1 := by omega
        subst hb1
        simp [pow_one]
      · rw [if_neg h2]
        have hsquash : ∀ r : Nat, r * ((a * a % N) ^ (b / 2)) % N
            = r * (a * a) ^ (b / 2) % N := by
          intro r
          conv_lhs => rw [Nat.mul_mod, ← Nat.pow_mod, ← Nat.mul_mod]
        by_cases hpar : b % 2 = 1
        · rw [if_pos hpar, hsquash, Nat.mod_mul_mod]
          have hexp : (a * a) ^ (b / 2) = a ^ (2 * (b / 2)) := by
            rw [two_mul, pow_add]
            rw [← mul_pow]
          rw [hexp, mul_assoc, ← pow_succ']
          have : 2 * (b / 2) + 1 = b := by omega
          rw [this]
        · rw [if_neg hpar, hsquash]
          have hexp : (a * a) ^ (b / 2) = a ^ b := by
            conv_rhs => rw [show b = 2 * (b / 2) from by omega]
            rw [two_mul, pow_add, ← mul_pow]
          rw [hexp]

theorem pow_spec (a b N : Nat) (hN : 1 ≤ N) (h : 1 ≤ b ∨ 2 ≤ N) :
    pow a b N = a ^ b % N := by
  rw [pow, pow_loop_spec (b+1) b 1 a N (by omega) hN]
  rcases Nat.eq_zero_or_pos b with hb | hb
  · subst hb
    have hN2 : 2 ≤ N := by omega
    simp [Nat.mod_eq_of_lt hN2]
  · rw [if_neg (by omega), one_mul]

/-! ### Correctness of `ex_gcd` -/

theorem euclidChainAux_ne_nil : ∀ (fuel a b : Nat), euclidChainAux fuel a b ≠ [] := by
  intro fuel a b
  cases fuel with
  | zero => simp [euclidChainAux]
  | succ f =>
    rw [euclidChainAux]
    by_cases h : b = 0 <;> simp [h]

theorem getLastD_irrel {α : Type} (l : List α) (hl : l ≠ []) (d d' : α) :
    l.getLastD d = l.getLastD d' := by
  cases l with
  | nil => contradiction
  | cons x xs => rw [List.getLastD_cons, List.getLastD_cons]

/-- The last entry of the remainder sequence is the gcd of its first two
entries. -/
theorem chain_getLastD : ∀ (fuel a b : Nat), b < fuel →
    (euclidChainAux fuel a b).getLastD 0 = Nat.gcd a b := by
  intro fuel
  induction fuel with
  | zero => omega
  | succ f ih =>
    intro a b hb
    rw [euclidChainAux]
    by_cases h : b = 0
    · simp [h]
    · rw [if_neg h, List.getLastD_cons]
      have hlt : a % b < f :=
        lt_of_lt_of_le (Nat.mod_lt a (by omega)) (by omega)
      rw [getLastD_irrel _ (euclidChainAux_ne_nil f b (a % b)) a 0, ih b (a % b) hlt]
      rw [Nat.gcd_comm b (a % b), ← Nat.gcd_rec b a, Nat.gcd_comm b a]

/-- Length of the remainder sequence: exactly 2 when the second operand
divides the first (the `IndexError` case of `ex_gcd`), at least 3
otherwise. -/
theorem chain_length_cases : ∀ (fuel a b : Nat), b < fuel → 1 ≤ b →
    (a % b = 0 → (euclidChainAux fuel a b).length = 2) ∧
    (a % b ≠ 0 → 3 ≤ (euclidChainAux fuel a b).length) := by
  intro fuel a b hb hb1
  cases fuel with
  | zero => omega
  | succ f =>
    rw [euclidChainAux, if_neg (by omega : ¬ b = 0)]
    constructor
    · intro h
      cases f with
      | zero => omega
      | succ f2 =>
        rw [h, euclidChainAux]
        simp
    · intro h
      cases f with
      | zero => omega
      | succ f2 =>
        rw [euclidChainAux, if_neg h]
        have hpos : 0 < (euclidChainAux f2 (a % b) (b % (a % b))).length :=
          List.length_pos.mpr (euclidChainAux_ne_nil f2 (a % b) (b % (a % b)))
        simp only [List.length_cons]
        omega

theorem bezAux_unfold (f a b : Nat) (hb : b ≠ 0) (h : a % b ≠ 0) :
    bezAux (f+1) a b = ((bezAux f b (a % b)).2,
      (bezAux f b (a % b)).1 - (bezAux f b (a % b)).2 * ((a / b : Nat) : Int)) := by
  simp [bezAux, hb, h]

/-- The invariant of the back-substitution loop: the final coefficients
`(s, t)` satisfy the Bezout identity `s*a + t*b = gcd a b`. -/
theorem bezAux_spec : ∀ (fuel a b : Nat), b < fuel → 0 < b →
    (bezAux fuel a b).1 * (a : Int) + (bezAux fuel a b).2 * (b : Int)
      = (Nat.gcd a b : Int) := by
  intro fuel
  induction fuel with
  | zero => omega
  | succ f ih =>
    intro a b hb hb0
    by_cases h : a % b = 0
    · rw [bezAux, if_neg (by omega : ¬ b = 0), if_pos h]
      have hg : Nat.gcd a b = b := by
        rw [Nat.gcd_comm]
        exact Nat.gcd_eq_left (Nat.dvd_of_mod_eq_zero h)
      simp [hg]
    · rw [bezAux_unfold f a b (by omega) h]
      have hlt : a % b < f :=
        lt_of_lt_of_le (Nat.mod_lt a hb0) (by omega)
      have ihh := ih b (a % b) hlt (Nat.pos_of_ne_zero h)
      have hgcd : Nat.gcd b (a % b) = Nat.gcd a b := by
        rw [Nat.gcd_comm b (a % b), ← Nat.gcd_rec b a, Nat.gcd_comm b a]
      rw [hgcd] at ihh
      have hcast : (b : Int) * ((a / b : Nat) : Int) + ((a % b : Nat) : Int)
          = (a : Int) := by
        exact_mod_cast Nat.div_add_mod a b
      rw [← ihh]
      dsimp only
      linear_combination (- (bezAux f b (a % b)).2) * hcast

/-- From a Bezout identity `s*a + t*b = 1` with `b ≥ 2`, the value
`(s % b).toNat` returned by `ex_gcd` is a modular inverse of `a` mod `b`. -/
theorem inv_mod_of_bezout {a b : Nat} (s t : Int) (hb2 : 2 ≤ b)
    (hbez : s * (a : Int) + t * (b : Int) = 1) :
    (a * (s % (b : Int)).toNat) % b = 1 := by
  have hb0 : ((b : Int)) ≠ 0 := by
    simp only [ne_eq, Nat.cast_eq_zero]
    omega
  have hbI : (1 : Int) < (b : Int) := by
    exact_mod_cast Nat.lt_of_lt_of_le Nat.one_lt_two hb2
  have hnonneg : 0 ≤ s % (b : Int) := Int.emod_nonneg s hb0
  have hsI : (((s % (b : Int)).toNat : Nat) : Int) = s % (b : Int) :=
    Int.toNat_of_nonneg hnonneg
  have hbig : ((a : Int) * (s % (b : Int))) % (b : Int) = 1 := by
    rw [Int.mul_emod, Int.emod_emod_of_dvd _ (dvd_refl ((b : Int))), ← Int.mul_emod]
    have hat : (a : Int) * s = 1 + (b : Int) * (-t) := by linarith
    rw [hat, Int.add_mul_emod_self_left]
    exact Int.emod_eq_of_lt (by norm_num) hbI
  have hfin : (((a * (s % (b : Int)).toNat) % b : Nat) : Int) = 1 := by
    push_cast [hsI]
    exact hbig
  exact_mod_cast hfin

/-- Whenever `ex_gcd a b` returns (rather than crashes) on coprime positive
inputs, it returns gcd 1 together with a modular inverse of `a` mod `b`;
moreover `b ≥ 2` in that case. -/
theorem ex_gcd_spec {a b g i : Nat} (ha : 1 ≤ a) (hb : 1 ≤ b)
    (hcop : Nat.gcd a b = 1) (h : ex_gcd a b = some (g, i)) :
    g = 1 ∧ 2 ≤ b ∧ (a * i) % b = 1 := by
  by_cases hswap : b > a
  · simp only [ex_gcd, if_pos hswap] at h
    by_cases hlen : (vals b a).length < 3
    · rw [if_pos hlen] at h
      exact absurd h (by simp)
    · rw [if_neg hlen] at h
      have hEq := Option.some.inj h
      have hg : (vals b a).getLastD 0 = g := congrArg Prod.fst hEq
      have hi : ((bez b a).2 % (b : Int)).toNat = i := congrArg Prod.snd hEq
      have hb2 : 2 ≤ b := by omega
      have hg1 : g = 1 := by
        rw [← hg, vals, chain_getLastD (a+1) b a (by omega), Nat.gcd_comm b a, hcop]
      have hbez := bezAux_spec (a+1) b a (by omega) (by omega)
      rw [Nat.gcd_comm b a, hcop] at hbez
      have hbez2 : (bez b a).2 * (a : Int) + (bez b a).1 * (b : Int) = 1 := by
        have h1 : (bez b a).1 * (b : Int) + (bez b a).2 * (a : Int)
            = ((1 : Nat) : Int) := hbez
        push_cast at h1
        linarith
      refine ⟨hg1, hb2, ?_⟩
      rw [← hi]
      exact inv_mod_of_bezout (bez b a).2 (bez b a).1 hb2 hbez2
  · simp only [ex_gcd, if_neg hswap] at h
    by_cases hlen : (vals a b).length < 3
    · rw [if_pos hlen] at h
      exact absurd h (by simp)
    · rw [if_neg hlen] at h
      have hEq := Option.some.inj h
      have hg : (vals a b).getLastD 0 = g := congrArg Prod.fst hEq
      have hi : ((bez a b).1 % (b : Int)).toNat = i := congrArg Prod.snd hEq
      have hmod : a % b ≠ 0 := by
        intro hx
        have := (chain_length_cases (b+1) a b (by omega) hb).1 hx
        rw [vals] at hlen
        omega
      have hb2 : 2 ≤ b := by
        rcases Nat.eq_or_lt_of_le hb with h1 | h1
        · exfalso
          apply hmod
          rw [← h1]
          exact Nat.mod_one a
        · omega
      have hg1 : g = 1 := by
        rw [← hg, vals, chain_getLastD (b+1) a b (by omega), hcop]
      have hbez := bezAux_spec (b+1) a b (by omega) (by omega)
      rw [hcop] at hbez
      have hbez2 : (bez a b).1 * (a : Int) + (bez a b).2 * (b : Int) = 1 := by
        have h1 : (bez a b).1 * (a : Int) + (bez a b).2 * (b : Int)
            = ((1 : Nat) : Int) := hbez
        push_cast at h1
        exact h1
      refine ⟨hg1, hb2, ?_⟩
      rw [← hi]
      exact inv_mod_of_bezout (bez a b).1 (bez a b).2 hb2 hbez2

/-- On coprime inputs both at least 2, `ex_gcd` does not crash: the
remainder sequence has length at least 3 and the gcd returned is 1. -/
theorem ex_gcd_some_of_coprime {a b : Nat} (ha : 2 ≤ a) (hb : 2 ≤ b)
    (hcop : Nat.gcd a b = 1) : ∃ i, ex_gcd a b = some (1, i) := by
  by_cases hswap : b > a
  · have hmod : b % a ≠ 0 := by
      intro h
      have : Nat.gcd a b = a := Nat.gcd_eq_left (Nat.dvd_of_mod_eq_zero h)
      omega
    have hlen := (chain_length_cases (a+1) b a (by omega) (by omega)).2 hmod
    refine ⟨((bez b a).2 % (b : Int)).toNat, ?_⟩
    simp only [ex_gcd, if_pos hswap]
    rw [if_neg (by rw [vals]; omega)]
    rw [vals, chain_getLastD (a+1) b a (by omega), Nat.gcd_comm b a, hcop]
  · have hmod : a % b ≠ 0 := by
      intro h
      have : Nat.gcd a b = b := by
        rw [Nat.gcd_comm]
        exact Nat.gcd_eq_left (Nat.dvd_of_mod_eq_zero h)
      omega
    have hlen := (chain_length_cases (b+1) a b (by omega) (by omega)).2 hmod
    refine ⟨((bez a b).1 % (b : Int)).toNat, ?_⟩
    simp only [ex_gcd, if_neg hswap]
    rw [if_neg (by rw [vals]; omega)]
    rw [vals, chain_getLastD (b+1) a b (by omega), hcop]

/-- The call `ex_gcd e 1` crashes (the remainder list is `[e, 1]`, and `vals[-3]`
raises `IndexError`): this is what happens in `gen_keys` when `p = q = 2`
makes `phi = 1`. -/
theorem ex_gcd_one_right {e : Nat} (he : 2 ≤ e) : ex_gcd e 1 = none := by
  simp only [ex_gcd, if_neg (by omega : ¬ 1 > e)]
  have hlen : (vals e 1).length = 2 := by
    rw [vals]
    exact (chain_length_cases (1+1) e 1 (by omega) (by omega)).1 (Nat.mod_one e)
  rw [if_pos (by omega)]

/-! ### The sieve of `gen_prime` and trial division of `dual_factor` -/

/-- A `find?` over an arithmetic window returns the first element satisfying
the predicate. -/
theorem find?_range'_eq_some {f : Nat → Bool} :
    ∀ (n s x : Nat), s ≤ x → x < s + n → f x = true →
    (∀ y, s ≤ y → y < x → f y = false) →
    (List.range' s n).find? f = some x := by
  intro n
  induction n with
  | zero =>
    intro s x h1 h2 _ _
    exact absurd h2 (by omega)
  | succ m ih =>
    intro s x h1 h2 hx hmin
    rw [List.range'_succ]
    by_cases hsx : s = x
    · subst hsx
      exact List.find?_cons_of_pos _ hx
    · have hlt : s < x := by omega
      rw [List.find?_cons_of_neg _ (by simp [hmin s le_rfl hlt])]
      exact ih (s+1) x (by omega) (by omega) hx (fun y hy1 hy2 => hmin y (by omega) hy2)

/-- An unmarked window element has no divisor among the trial divisors
`2 .. sqrt hi`. -/
theorem isMarked_false_not_dvd {hi x d : Nat} (hmark : isMarked hi x = false)
    (hd2 : 2 ≤ d) (hdsqrt : d ≤ Nat.sqrt hi) : ¬ d ∣ x := by
  intro hdvd
  rw [isMarked] at hmark
  have hmem : d ∈ List.range' 2 (isqrt hi + 1 - 2) := by
    rw [List.mem_range'_1, isqrt_eq]
    omega
  have hnot := List.any_eq_false.mp hmark d hmem
  apply hnot
  obtain ⟨c, rfl⟩ := hdvd
  simp [Nat.mul_mod_right]

/-- Soundness of one sieve iteration: any value returned lies in the
requested range and is prime. -/
theorem genPrimeStep_sound {a b mid x : Nat} (ha : 2 ≤ a) (h1 : a ≤ mid)
    (h2 : mid ≤ b) (h : genPrimeStep a b mid = some x) :
    a ≤ x ∧ x ≤ b ∧ Nat.Prime x := by
  simp only [genPrimeStep] at h
  set start := max a (mid - 50) with hstart
  set hi := min b (mid + 50) with hhi
  have hs_le : start ≤ mid := max_le h1 (Nat.sub_le mid 50)
  have hm_le : mid ≤ hi := le_min h2 (Nat.le_add_right mid 50)
  have hmem := List.mem_of_find?_eq_some h
  have hsat := List.find?_some h
  rw [List.mem_range'_1] at hmem
  have hxs : start ≤ x := hmem.1
  have hxhi : x ≤ hi := by
    have := hmem.2
    omega
  have hax : a ≤ x := le_trans (le_max_left a (mid - 50)) hxs
  have hxb : x ≤ b := le_trans hxhi (min_le_left b (mid + 50))
  refine ⟨hax, hxb, ?_⟩
  have hx2 : 2 ≤ x := le_trans ha hax
  by_contra hnp
  have hmark : isMarked hi x = false := by
    simpa using hsat
  have hfp : (Nat.minFac x).Prime := Nat.minFac_prime (by omega)
  have hsq : Nat.minFac x ^ 2 ≤ x := Nat.minFac_sq_le_self (by omega) hnp
  have hfsqrt : Nat.minFac x ≤ Nat.sqrt x := by
    rw [Nat.le_sqrt]
    rw [pow_two] at hsq
    exact hsq
  have hfhi : Nat.minFac x ≤ Nat.sqrt hi := le_trans hfsqrt (Nat.sqrt_le_sqrt hxhi)
  exact isMarked_false_not_dvd hmark hfp.two_le hfhi (Nat.minFac_dvd x)

/-- Trial division on a product of two primes `p < q` finds exactly `(p, q)`. -/
theorem dual_factor_of_primes_lt {p q : Nat} (hp : p.Prime) (hq : q.Prime)
    (hlt : p < q) : dual_factor (p * q) = some (p, q) := by
  rw [dual_factor]
  have hp2 := hp.two_le
  have hq2 := hq.two_le
  have hsqrt : p ≤ Nat.sqrt (p * q) := by
    rw [Nat.le_sqrt]
    exact Nat.mul_le_mul_left p (le_of_lt hlt)
  have hfind : (List.range' 2 (isqrt (p*q) + 1 - 2)).find?
      (fun a => (p*q) % a == 0) = some p := by
    apply find?_range'_eq_some
    · exact hp2
    · rw [isqrt_eq]
      omega
    · simp [Nat.mul_mod_right]
    · intro y hy1 hy2
      have hnd : ¬ y ∣ p * q := by
        intro hdvd
        have hmf_p : (Nat.minFac y).Prime := Nat.minFac_prime (by omega)
        have hmf_dvd : Nat.minFac y ∣ p * q := dvd_trans (Nat.minFac_dvd y) hdvd
        have hle : Nat.minFac y ≤ y := Nat.minFac_le (by omega)
        rcases (Nat.Prime.dvd_mul hmf_p).mp hmf_dvd with hcase | hcase
        · have : Nat.minFac y = p := (Nat.prime_dvd_prime_iff_eq hmf_p hp).mp hcase
          omega
        · have : Nat.minFac y = q := (Nat.prime_dvd_prime_iff_eq hmf_p hq).mp hcase
          omega
      cases hmod : ((p*q) % y == 0) with
      | false => rfl
      | true => exact absurd (Nat.dvd_of_mod_eq_zero (by simpa using hmod)) hnd
  rw [hfind]
  have hdiv : p * q / p = q := Nat.mul_div_cancel_left q (by omega)
  simp [hdiv]

/-- Applied to a product of two distinct primes, `dual_factor` returns the pair in
ascending order. -/
theorem dual_factor_semiprime {p q : Nat} (hp : p.Prime) (hq : q.Prime)
    (hne : p ≠ q) : dual_factor (p * q) = some (min p q, max p q) := by
  rcases lt_or_gt_of_ne hne with h | h
  · rw [min_eq_left (le_of_lt h), max_eq_right (le_of_lt h)]
    exact dual_factor_of_primes_lt hp hq h
  · rw [min_eq_right (le_of_lt h), max_eq_left (le_of_lt h), mul_comm]
    exact dual_factor_of_primes_lt hq hp h

/-! ### Number-theoretic core of the RSA round trip -/

theorem zmod_pow_totient_step (r : Nat) (hr : r.Prime) (c m : Nat) :
    (m : ZMod r) ^ ((r - 1) * c + 1) = (m : ZMod r) := by
  haveI := Fact.mk hr
  by_cases h : (m : ZMod r) = 0
  · rw [h, zero_pow (by omega)]
  · rw [pow_add, pow_mul, ZMod.pow_card_sub_one_eq_one h, one_pow, one_mul, pow_one]

theorem pow_phi_modeq {p q : Nat} (hp : p.Prime) (hq : q.Prime) (hne : p ≠ q)
    (m k : Nat) : m ^ ((p-1)*(q-1)*k + 1) ≡ m [MOD p * q] := by
  have hcp : Nat.Coprime p q := (Nat.coprime_primes hp hq).mpr hne
  rw [← Nat.modEq_and_modEq_iff_modEq_mul hcp]
  constructor
  · have h1 : (p-1)*(q-1)*k + 1 = (p-1)*((q-1)*k) + 1 := by ring
    rw [h1, ← ZMod.natCast_eq_natCast_iff]
    push_cast
    exact zmod_pow_totient_step p hp ((q-1)*k) m
  · have h1 : (p-1)*(q-1)*k + 1 = (q-1)*((p-1)*k) + 1 := by ring
    rw [h1, ← ZMod.natCast_eq_natCast_iff]
    push_cast
    exact zmod_pow_totient_step q hq ((p-1)*k) m

theorem rsa_roundtrip_core {p q e d : Nat} (hp : p.Prime) (hq : q.Prime)
    (hne : p ≠ q) (hed : (e * d) % ((p-1)*(q-1)) = 1) (m : Nat)
    (hm : m < p * q) : m ^ (e * d) % (p * q) = m := by
  have hsplit : (p-1)*(q-1) * ((e*d) / ((p-1)*(q-1))) + 1 = e * d := by
    have h := Nat.div_add_mod (e*d) ((p-1)*(q-1))
    omega
  rw [← hsplit]
  have hmod := pow_phi_modeq hp hq hne m ((e*d) / ((p-1)*(q-1)))
  calc m ^ ((p-1)*(q-1) * ((e*d) / ((p-1)*(q-1))) + 1) % (p*q)
      = m % (p*q) := hmod
    _ = m := Nat.mod_eq_of_lt hm

/-- Shared helper: `gen_prime` raises its range exception exactly when
`a < 2` or `b < a`, and this happens before any sieving (structurally, the
`error` branch never evaluates the sieve). -/
theorem gen_prime_error_iff (a b : Int) (mid : Nat) :
    gen_prime a b mid = Except.error () ↔ (a < 2 ∨ b < a) := by
  have hcond : invalidRange a b = true ↔ (a < 2 ∨ b < a) := by
    simp [invalidRange]
  by_cases h : invalidRange a b = true
  · rw [gen_prime, if_pos h]
    exact ⟨fun _ => hcond.mp h, fun _ => rfl⟩
  · rw [gen_prime, if_neg h]
    constructor
    · intro hx
      exact absurd hx (by simp)
    · intro hx
      exact absurd (hcond.mpr hx) h

/-! ### The claims -/

/-- C1. Encryption/decryption round-trip: for every key triple `(N, e, d)`
satisfying the KeyPair invariants (`N = p*q` for distinct primes `p, q`,
`phi = (p-1)*(q-1)`, `gcd(e, phi) = 1`, `(e*d) % phi = 1`) and every message
`m` with `0 ≤ m < N`, `decrypt (encrypt m N e) N d = m`. -/
theorem claim1_roundtrip (p q e d m : Nat) (hp : Nat.Prime p) (hq : Nat.Prime q)
    (hne : p ≠ q) (hcop : Nat.gcd e ((p-1)*(q-1)) = 1)
    (hed : (e * d) % ((p-1)*(q-1)) = 1) (hm : m < p * q) :
    decrypt (encrypt m (p * q) e) (p * q) d = m := by
  have hp2 := hp.two_le
  have hq2 := hq.two_le
  have hN2 : 2 ≤ p * q := by
    have := Nat.mul_le_mul hp2 hq2
    omega
  rw [encrypt, decrypt]
  rw [pow_spec m e (p*q) (by omega) (Or.inr hN2)]
  rw [pow_spec _ d (p*q) (by omega) (Or.inr hN2)]
  rw [← Nat.pow_mod, ← pow_mul]
  exact rsa_roundtrip_core hp hq hne hed m hm

theorem claim1_witness : decrypt (encrypt 2 (3 * 5) 3) (3 * 5) 3 = 2 :=
  claim1_roundtrip 3 5 3 3 2 (by norm_num) (by norm_num) (by norm_num)
    (by decide) (by decide) (by norm_num)

/-- C2. Key-generation postcondition: whenever the three draws of
`gen_keys` return (`p`, `q` from `gen_prime(2, max_gen)`, `e` from
`gen_prime(max(p,q), max_gen)`) and the arithmetic tail returns
`(N, e, d)` (in particular `ex_gcd` did not crash), then `N = p*q` and
`(e*d) mod phi = 1` for `phi = (p-1)*(q-1)` reconstructed from the drawn
primes. `mg` stands for `max_gen = int(10**(max_digits/2))`. -/
theorem claim2_keygen (mg p q e N e2 d : Nat)
    (hpdraw : genPrimeReturns 2 mg p) (hqdraw : genPrimeReturns 2 mg q)
    (hedraw : genPrimeReturns (max p q) mg e)
    (h : gen_keys_from p q e = some (N, e2, d)) :
    N = p * q ∧ (e2 * d) % ((p-1)*(q-1)) = 1 := by
  obtain ⟨hp2, hpb, mp, hmp1, hmp2, hpstep⟩ := hpdraw
  obtain ⟨hq2x, hqb, mq, hmq1, hmq2, hqstep⟩ := hqdraw
  obtain ⟨he2x, heb, me, hme1, hme2, hestep⟩ := hedraw
  obtain ⟨-, -, hp⟩ := genPrimeStep_sound hp2 hmp1 hmp2 hpstep
  obtain ⟨-, -, hq⟩ := genPrimeStep_sound hq2x hmq1 hmq2 hqstep
  obtain ⟨hemax, -, he⟩ := genPrimeStep_sound he2x hme1 hme2 hestep
  have hp2' := hp.two_le
  have hq2' := hq.two_le
  have he2' := he.two_le
  rw [gen_keys_from] at h
  by_cases hphi1 : (p-1)*(q-1) = 1
  · rw [hphi1, ex_gcd_one_right he2'] at h
    exact absurd h (by simp)
  · have hphi2 : 2 ≤ (p-1)*(q-1) := by
      have h1 : 1 ≤ p - 1 := by omega
      have h2 : 1 ≤ q - 1 := by omega
      have := Nat.mul_le_mul h1 h2
      omega
    have hmaxp : p ≤ max p q := le_max_left p q
    have hmaxq : q ≤ max p q := le_max_right p q
    have hcop : Nat.gcd e ((p-1)*(q-1)) = 1 := by
      refine (Nat.Prime.coprime_iff_not_dvd he).mpr ?_
      intro hdvd
      rcases (Nat.Prime.dvd_mul he).mp hdvd with hc | hc
      · have := Nat.le_of_dvd (by omega) hc
        omega
      · have := Nat.le_of_dvd (by omega) hc
        omega
    rw [Option.map_eq_some'] at h
    obtain ⟨gi, hgi, htup⟩ := h
    have hN : N = p * q := (congrArg Prod.fst htup).symm
    have he2eq : e2 = e := (congrArg (fun x => x.2.1) htup).symm
    have hd : d = gi.2 := (congrArg (fun x => x.2.2) htup).symm
    have hspec := ex_gcd_spec (a := e) (b := (p-1)*(q-1)) (by omega) (by omega)
      hcop (g := gi.1) (i := gi.2) (by rw [hgi])
    refine ⟨hN, ?_⟩
    rw [he2eq, hd]
    exact hspec.2.2

theorem claim2_witness : 121 = 11 * 11 ∧ (11 * 91) % ((11-1)*(11-1)) = 1 :=
  claim2_keygen 100 11 11 11 121 11 91
    ⟨by norm_num, by norm_num, 7, by norm_num, by norm_num, by decide⟩
    ⟨by norm_num, by norm_num, 7, by norm_num, by norm_num, by decide⟩
    ⟨by decide, by decide, 11, by decide, by decide, by decide⟩
    (by decide)

/-- C3. Attack/key-generation agreement: for `N = p*q` with distinct primes
`p, q` and `gcd(e, (p-1)*(q-1)) = 1`, `crack (p*q) e` returns exactly what
the key-generation construction produces for the same `p, q, e`, namely the
inverse component of `ex_gcd e ((p-1)*(q-1))`. -/
theorem claim3_crack_agreement (p q e : Nat) (hp : Nat.Prime p)
    (hq : Nat.Prime q) (hne : p ≠ q)
    (hcop : Nat.gcd e ((p-1)*(q-1)) = 1) :
    crack (p * q) e = keygen_d p q e := by
  rw [crack, keygen_d, dual_factor_semiprime hp hq hne]
  have hphi : (min p q - 1) * (max p q - 1) = (p-1)*(q-1) := by
    rcases le_total p q with h | h
    · rw [min_eq_left h, max_eq_right h]
    · rw [min_eq_right h, max_eq_left h, mul_comm]
  show (ex_gcd e ((min p q - 1) * (max p q - 1))).map (fun gi => gi.2)
      = (ex_gcd e ((p-1)*(q-1))).map (fun gi => gi.2)
  rw [hphi]

theorem claim3_witness : crack (3 * 5) 3 = keygen_d 3 5 3 :=
  claim3_crack_agreement 3 5 3 (by norm_num) (by norm_num) (by norm_num)
    (by decide)

/-- C4 (amended). Bezout identity of the extended GCD: for coprime
`a, b ≥ 2` the call returns `(1, i)` with `(a * i) % b = 1`, and
`ex_gcd 3 11 = (1, 4)`. (As literally stated over all coprime `a, b ≥ 1`
the claim is false: when the smaller argument is 1 the remainder list has
fewer than 3 entries and `vals[-3]` raises `IndexError`, see the
counterexample.) -/
theorem claim4_bezout :
    (∀ a b : Nat, 2 ≤ a → 2 ≤ b → Nat.gcd a b = 1 →
      ∃ i, ex_gcd a b = some (1, i) ∧ (a * i) % b = 1) ∧
    ex_gcd 3 11 = some (1, 4) := by
  constructor
  · intro a b ha hb hcop
    obtain ⟨i, hsome⟩ := ex_gcd_some_of_coprime ha hb hcop
    obtain ⟨-, -, hinv⟩ := ex_gcd_spec (by omega) (by omega) hcop hsome
    exact ⟨i, hsome, hinv⟩
  · decide

/-- C4 counterexample: `a = b = 1` are coprime and at least 1, but
`ex_gcd 1 1` crashes (`vals = [1, 1]`, so `vals[-3]` raises `IndexError`)
instead of returning a pair. -/
theorem claim4_counterexample : Nat.gcd 1 1 = 1 ∧ ex_gcd 1 1 = none := by
  decide

theorem claim4_witness : ∃ i, ex_gcd 3 11 = some (1, i) ∧ (3 * i) % 11 = 1 :=
  claim4_bezout.1 3 11 (by norm_num) (by norm_num) (by decide)

/-- C5. On a prime input (no divisor `a` with `2 ≤ a ≤ √N`), `dual_factor`
returns `None` and `crack` consequently crashes while unpacking it
(modelled by `none`): there is no explicit FactorizationFailed error in the
code, contrary to the claim. Evaluated at the failing input `N = 7`. -/
theorem claim5_crack_crash :
    Nat.Prime 7 ∧ dual_factor 7 = none ∧ crack 7 5 = none := by
  refine ⟨by norm_num, by decide, by decide⟩

/-- C6. Prime-generation soundness: whenever an iteration of
`gen_prime low high` returns a value `p` (for any drawn midpoint), `p` lies
in `[low, high]` and is prime. -/
theorem claim6_gen_prime_sound (low high mid p : Nat) (hlow : 2 ≤ low)
    (hhigh : low ≤ high) (hm1 : low ≤ mid) (hm2 : mid ≤ high)
    (h : genPrimeStep low high mid = some p) :
    low ≤ p ∧ p ≤ high ∧ Nat.Prime p :=
  genPrimeStep_sound hlow hm1 hm2 h

theorem claim6_witness : 2 ≤ 5 ∧ 5 ≤ 10 ∧ Nat.Prime 5 :=
  claim6_gen_prime_sound 2 10 5 5 (by norm_num) (by norm_num) (by norm_num)
    (by norm_num) (by decide)

/-- C7 (amended). Modular exponentiation: `pow a b N = a ^ b % N` for all
`base a ≥ 0`, `modulus N ≥ 1` and `exponent b ≥ 0` except the corner
`b = 0, N = 1` (there the code returns the unreduced accumulator `1`, not
`1 % 1 = 0`, see the counterexample); `b = 0` yields `1 % N` whenever
`N ≥ 2`; and `pow 4 13 497 = 445`. -/
theorem claim7_pow_amended :
    (∀ a b N : Nat, 1 ≤ N → (1 ≤ b ∨ 2 ≤ N) → pow a b N = a ^ b % N) ∧
    (∀ a N : Nat, 2 ≤ N → pow a 0 N = 1 % N) ∧
    pow 4 13 497 = 445 := by
  refine ⟨fun a b N hN h => pow_spec a b N hN h, ?_, by decide⟩
  intro a N hN
  rw [pow_spec a 0 N (by omega) (Or.inr hN), pow_zero]

/-- C7 counterexample: at `base = 4, exponent = 0, modulus = 1` the code
returns `1`, but `4 ^ 0 mod 1 = 0`. -/
theorem claim7_counterexample : pow 4 0 1 = 1 ∧ 4 ^ 0 % 1 = 0 := by
  decide

theorem claim7_witness : pow 4 13 497 = 4 ^ 13 % 497 :=
  claim7_pow_amended.1 4 13 497 (by norm_num) (Or.inl (by norm_num))

/-- C8. Range validation of `gen_prime`: the call errors iff
`low < 2 ∨ high < low` (checked eagerly, before any sieving — in the model
the `error` branch is taken before `genPrimeStep` is reached), and
`gen_prime 1 10` always raises. No other outcome than `error`/`ok` exists
for any input. -/
theorem claim8_validation : ∀ (a b : Int) (mid : Nat),
    (gen_prime a b mid = Except.error () ↔ (a < 2 ∨ b < a)) ∧
    gen_prime 1 10 mid = Except.error () := by
  intro a b mid
  exact ⟨gen_prime_error_iff a b mid,
    (gen_prime_error_iff 1 10 mid).mpr (Or.inl (by norm_num))⟩

/-- C9 (amended). The exponent-draw `gen_prime(max(p,q), max_gen)` inside
`gen_keys` raises InvalidRangeError iff `max_gen < max(p,q)` *strictly*
(for `p, q ≥ 2`); at `max(p,q) = max_gen` the check `b < a` is false and
no error is raised (the claim as stated, with `max(p,q) ≥ max_gen`, fails
at equality — see the counterexample). -/
theorem claim9_amended (p q mg : Int) (mid : Nat) (hp : 2 ≤ p) (hq : 2 ≤ q) :
    gen_prime (max p q) mg mid = Except.error () ↔ mg < max p q := by
  rw [gen_prime_error_iff]
  have h1 : p ≤ max p q := le_max_left p q
  constructor
  · rintro (h | h)
    · omega
    · exact h
  · intro h
    exact Or.inr h

/-- C9 counterexample: with `max(p,q) = max_gen = 5` (both primes equal to
5), the exponent call `gen_prime(5, 5)` does not raise: it returns the
prime 5. -/
theorem claim9_counterexample :
    (5 : Int) ≤ max 5 5 ∧ gen_prime (max 5 5) 5 5 = Except.ok (some 5)
      ∧ Nat.Prime 5 := by
  refine ⟨by norm_num, by rfl, by norm_num⟩

theorem claim9_witness : gen_prime (max 5 5) 4 0 = Except.error () :=
  (claim9_amended 5 5 4 0 (by norm_num) (by norm_num)).mpr (by decide)

/-- C10. The sieve's self-marking defect and its consequence: every trial
divisor `d` (`2 ≤ d ≤ sqrt hi`) lying inside the window marks itself
composite, and therefore `gen_prime 2 10` deterministically returns 5 for
every drawn midpoint (2 and 3 mark themselves, 4, 6, 8, 9, 10 are marked as
proper multiples, and 5 is the first survivor). -/
theorem claim10_sieve_defect :
    (∀ start hi d : Nat, 2 ≤ d → d ≤ Nat.sqrt hi → start ≤ d → d ≤ hi →
      isMarked hi d = true) ∧
    (∀ mid : Nat, 2 ≤ mid → mid ≤ 10 → genPrimeStep 2 10 mid = some 5) := by
  constructor
  · intro start hi d hd2 hdsqrt _ _
    rw [isMarked, List.any_eq_true]
    refine ⟨d, ?_, by simp [Nat.mod_self]⟩
    rw [List.mem_range'_1, isqrt_eq]
    omega
  · intro mid h1 h2
    interval_cases mid <;> decide

theorem claim10_witness : isMarked 10 3 = true ∧ genPrimeStep 2 10 7 = some 5 :=
  ⟨claim10_sieve_defect.1 2 10 3 (by norm_num) (by rw [← isqrt_eq]; decide)
      (by norm_num) (by norm_num),
    claim10_sieve_defect.2 7 (by norm_num) (by norm_num)⟩

end RSA
